import Mathlib

set_option maxRecDepth 8000

/-!
Verification of `src/proto_identify.c`: the keyword dictionary used for
protocol identification.  The C file keeps a bounded table of keyword
signatures (arrays of `uint16_t` symbols, where `0x100` is a wildcard),
builds a tree whose edges are labelled with symbols (each node holds an
edge array aligned with the sibling chain of its children), and classifies
a byte buffer by walking the tree.

Embedding conventions:
  * `uint16_t` symbol values are `Nat` (the C code only copies and compares
    them, so no overflow can occur and the embedding is exact for in-range
    values);
  * input buffers are lists of byte values (`Nat`, meant `< 256`); the C
    matcher reads them through a `const char *`, i.e. as signed chars, which
    `signedChar` models (sign extension of the low 8 bits);
  * the sibling chain of a node's children together with its parallel
    `edge[]` array is one list of `(edge, child)` pairs, the representation
    the construction code maintains (edge `k` labels the `k`-th node of the
    sibling chain);
  * `free`/`malloc` bookkeeping is modelled by counting `free` calls
    (`destroy_kdn` returns how many nodes it frees), and a function that can
    dereference NULL or exhaust a fixed-size structure returns `Option`,
    `none` standing for the failing execution.
-/

/-- Flow direction value `DIR_UNKNOWN`. -/
def DIR_UNKNOWN : Nat := 0

/-- Flow direction value `DIR_CLIENT`. -/
def DIR_CLIENT : Nat := 1

/-- Flow direction value `DIR_SERVER`. -/
def DIR_SERVER : Nat := 2

/-- The C macro `WILDCARD` (`0x100`): the symbol matching any byte. -/
def WILDCARD : Nat := 0x100

/-- The C macro `MAX_VAL_LEN`: maximum number of symbols of a keyword. -/
def MAX_VAL_LEN : Nat := 32

/-- The C macro `MAX_VAL_BYTES`: maximum byte length of a keyword value. -/
def MAX_VAL_BYTES : Nat := 2 * MAX_VAL_LEN

/-- The C macro `MAX_KEYWORDS`: capacity of the keyword table. -/
def MAX_KEYWORDS : Nat := 256

/-- The C macro `MAX_CHILDREN` (257): size of a node's `edge[]` array,
documented in the source as the full range of one byte plus an extra slot
for the wildcard. -/
def MAX_CHILDREN : Nat := 257

/-- `struct pi_container`: flow direction and application protocol
prediction. -/
structure PiContainer where
  dir : Nat
  app : Nat
deriving DecidableEq

/-- `struct keyword_container`: a keyword value (list of `uint16_t`
symbols; the C struct stores the array together with `value_len`, here the
list length) and its protocol inference. -/
structure KeywordContainer where
  value : List Nat
  pi : PiContainer
deriving DecidableEq

/-- `add_keyword` from the source: appends a keyword to the table.  Returns
the C result code (0 success, 1 failure) together with the table after the
call.  The failure checks (`num_keywords >= MAX_KEYWORDS`, then
`value_bytes_len > MAX_VAL_BYTES`) happen before anything is written, so on
failure the table is returned unchanged; `value_bytes_len` is
`2 * value.length` since each symbol is a `uint16_t`. -/
def add_keyword (tbl : List KeywordContainer) (value : List Nat)
    (pi : PiContainer) : Nat × List KeywordContainer :=
  if MAX_KEYWORDS ≤ tbl.length then (1, tbl)
  else if MAX_VAL_BYTES < 2 * value.length then (1, tbl)
  else (0, tbl ++ [⟨value, pi⟩])

/-- The client-direction TLS signature of `add_tls_identifiers`. -/
def tls_client_sig : List Nat := [0x16, 0x03, 0x01, WILDCARD, WILDCARD, 0x01]

/-- The server-direction TLS signature of `add_tls_identifiers`. -/
def tls_server_sig : List Nat := [0x16, 0x03, 0x01, WILDCARD, WILDCARD, 0x02]

/-- `add_tls_identifiers` from the source: adds the two TLS record-header
keywords (client then server, both protocol 443) to the table.  Returns the
C result code and the resulting table. -/
def add_tls_identifiers (tbl : List KeywordContainer) :
    Nat × List KeywordContainer :=
  match add_keyword tbl tls_client_sig ⟨DIR_CLIENT, 443⟩ with
  | (0, t1) =>
    (match add_keyword t1 tls_server_sig ⟨DIR_SERVER, 443⟩ with
     | (0, t2) => (0, t2)
     | (_, t2) => (1, t2))
  | (_, t1) => (1, t1)

/-- `init_keywords` from the source: zeroes the table (the empty list) and
populates it through `populate_keyword_identifiers`, which only calls
`add_tls_identifiers`. -/
def init_keywords : Nat × List KeywordContainer :=
  add_tls_identifiers []

/-- The keyword table after `init_keywords`: the reference TLS catalog. -/
def tlsTable : List KeywordContainer := init_keywords.2

/-- `struct keyword_dict_node`: a tree node.  `children` is the node's
`edge[]` array fused with the sibling chain hanging off its first-child
pointer: entry `k` is `(edge[k], k-th node of the chain)`, the alignment the
construction code maintains.  `pi` is the node's protocol inference. -/
inductive Kdn where
  | node (children : List (Nat × Kdn)) (pi : PiContainer)

/-- The children list of a node. -/
def Kdn.children : Kdn → List (Nat × Kdn)
  | .node cs _ => cs

/-- The protocol inference stored at a node. -/
def Kdn.pi : Kdn → PiContainer
  | .node _ p => p

/-- A freshly allocated node (`alloc_kdn` uses `calloc`, so everything is
zero: no children, inference `{0, 0}`). -/
def emptyKdn : Kdn := .node [] ⟨0, 0⟩

/-- The value the expression `*data` yields in `search_keyword_dict` when
the next input byte is `b`: `data` is a `const char *`, so the byte is read
as a signed char (sign extension of `b`'s low 8 bits) before being compared
against the `uint16_t` edge value. -/
def signedChar (b : Nat) : Int :=
  if b % 256 < 128 then ((b % 256 : Nat) : Int)
  else ((b % 256 : Nat) : Int) - 256

/-- The edge test of `search_keyword_dict`:
`(node->edge[i] == WILDCARD) || (*data == node->edge[i])`, with the usual
arithmetic conversions (`*data` sign extended, the edge value zero
extended, both to `int`). -/
def edgeMatch (e b : Nat) : Bool :=
  (e == WILDCARD) || (signedChar b == (e : Int))

/-- Replacing (in place, as the C code mutates) the child behind the first
edge equal to `v` in a children list. -/
def replaceFirst : List (Nat × Kdn) → Nat → Kdn → List (Nat × Kdn)
  | [], _, _ => []
  | (e, c) :: rest, v, c' =>
    if e = v then (e, c') :: rest else (e, c) :: replaceFirst rest v c'

/-- `keyword_dict_add_keyword` from the source, as a function from the tree
below the current node: walks the symbols of the keyword; at each node it
scans the edge array for the first edge equal to the symbol (`break` on the
first hit) and descends into the aligned child; otherwise it creates a new
child at the end of the sibling chain (`kdn_create_child` when the node has
no child yet, `kdn_create_sibling` otherwise — the latter refuses when
`num_children == MAX_CHILDREN - 1`, in which case the C code goes on to
dereference the NULL result: that execution is `none`).  The node reached
after the last symbol gets the keyword's inference. -/
def insertKW : List Nat → PiContainer → Kdn → Option Kdn
  | [], pi, .node cs _ => some (.node cs pi)
  | v :: rest, pi, .node cs p0 =>
    match cs.find? (fun p => p.1 == v) with
    | some (_, c) =>
      match insertKW rest pi c with
      | some c' => some (.node (replaceFirst cs v c') p0)
      | none => none
    | none =>
      if cs.length = MAX_CHILDREN - 1 then none
      else
        match insertKW rest pi emptyKdn with
        | some c' => some (.node (cs ++ [(v, c')]) p0)
        | none => none

/-- The keyword-insertion loop of `construct_keyword_dict`: adds every
keyword of the table, in table order, to the tree. -/
def insertAll : List KeywordContainer → Kdn → Option Kdn
  | [], t => some t
  | kc :: rest, t =>
    match insertKW kc.value kc.pi t with
    | some t' => insertAll rest t'
    | none => none

/-- `construct_keyword_dict` from the source: allocates a zeroed root and
adds every keyword of the table to it. -/
def construct_keyword_dict (kcs : List KeywordContainer) : Option Kdn :=
  insertAll kcs emptyKdn

/-- The dictionary tree built from the reference TLS catalog. -/
def tlsTree : Kdn := (construct_keyword_dict tlsTable).getD emptyKdn

/-- `search_keyword_dict` from the source: at each node, scan the edge
array in creation order; on the first edge matching the current input byte
(`edgeMatch`), commit to the aligned child: return its inference when its
`pi.app` is non-zero, give up when only one input byte was left, and
otherwise recurse with the input advanced by one byte.  When no edge
matches, return `none`.  The entry checks (`root == NULL`, `data == NULL`,
`data_len == 0`) make the empty input return `none`. -/
def searchKD : List Nat → Kdn → Option PiContainer
  | [], _ => none
  | b :: rest, .node cs _ =>
    match cs.find? (fun p => edgeMatch p.1 b) with
    | none => none
    | some (_, c) =>
      if c.pi.app ≠ 0 then some c.pi
      else
        match rest with
        | [] => none
        | _ :: _ => searchKD rest c

/-- `search_keyword_dict` instrumented with the list of edge symbols of the
path it commits to: the recursion of `searchKD`, also returning the edge
labels traversed from the root down to the node whose inference is
returned. -/
def searchKDPath : List Nat → Kdn → Option (PiContainer × List Nat)
  | [], _ => none
  | b :: rest, .node cs _ =>
    match cs.find? (fun p => edgeMatch p.1 b) with
    | none => none
    | some (e, c) =>
      if c.pi.app ≠ 0 then some (c.pi, [e])
      else
        match rest with
        | [] => none
        | _ :: _ =>
          match searchKDPath rest c with
          | none => none
          | some (pi, path) => some (pi, e :: path)

/-- `identify_tcp_protocol` from the source, over an already built tree:
returns 0 on empty input, otherwise the `app` field of the inference found
by `search_keyword_dict`, or 0 when there is none. -/
def identify_tcp_protocol (t : Kdn) (data : List Nat) : Nat :=
  match data with
  | [] => 0
  | _ :: _ =>
    match searchKD data t with
    | some pi => pi.app
    | none => 0

mutual

/-- `destroy_kdn` from the source, modelled as the number of `free` calls
it performs: one per node of the tree (children first along the sibling
chain, then the node itself). -/
def destroy_kdn : Kdn → Nat
  | .node cs _ => 1 + destroy_children cs

/-- The child-freeing loop of `destroy_kdn` over a sibling chain. -/
def destroy_children : List (Nat × Kdn) → Nat
  | [] => 0
  | (_, c) :: rest => destroy_kdn c + destroy_children rest

end

/-- `proto_identify_destroy_keyword_dict` from the source: takes the value
of the global `kd_root` and returns the value `kd_root` holds after the
call together with the number of `free` calls performed.  The source only
checks `kd_root == NULL` and calls `destroy_kdn(kd_root)`; it never resets
`kd_root`, so the pointer (now dangling) survives the call. -/
def proto_identify_destroy_keyword_dict (kd_root : Option Kdn) :
    Option Kdn × Nat :=
  match kd_root with
  | none => (none, 0)
  | some t => (some t, destroy_kdn t)

/-- The edge lists of a tree are sets keyed by symbol value: at every node,
no two outgoing edges carry the same symbol. -/
inductive EdgeInv : Kdn → Prop where
  | node : ∀ (cs : List (Nat × Kdn)) (p : PiContainer),
      (cs.map Prod.fst).Nodup →
      (∀ q ∈ cs, EdgeInv q.2) →
      EdgeInv (.node cs p)

/-- A table of 257 one-symbol keywords whose symbols are the 256 literal
byte values `0x00`..`0xFF` followed by `WILDCARD`: together they ask for
257 distinct edges out of the root node. -/
def oneSymbolKeywords : List KeywordContainer :=
  (List.range MAX_CHILDREN).map (fun i => ⟨[i], ⟨0, 7⟩⟩)

/-- The dictionary tree built from the single signature
`[0x16, 0x03, 0x01, WILDCARD, WILDCARD, 0x01]` (protocol 443, client). -/
def wcTree : Kdn :=
  (construct_keyword_dict [⟨tls_client_sig, ⟨DIR_CLIENT, 443⟩⟩]).getD emptyKdn
theorem edgeMatch_true_cases (e b : Nat) (h : edgeMatch e b = true) :
    e = WILDCARD ∨ e < 128 := by
  unfold edgeMatch at h
  rw [Bool.or_eq_true, beq_iff_eq, beq_iff_eq] at h
  rcases h with h | h
  · exact Or.inl h
  · right
    have hlt : signedChar b < 128 := by
      unfold signedChar
      split <;> omega
    rw [h] at hlt
    omega

theorem searchKD_eq_searchKDPath :
    ∀ (data : List Nat) (t : Kdn),
      searchKD data t = (searchKDPath data t).map Prod.fst := by
  intro data
  induction data with
  | nil => intro t; rfl
  | cons b rest ih =>
    intro t
    obtain ⟨cs, p0⟩ := t
    simp only [searchKD, searchKDPath]
    cases hfind : cs.find? (fun p => edgeMatch p.1 b) with
    | none => rfl
    | some pr =>
      obtain ⟨e, c⟩ := pr
      simp only
      by_cases happ : c.pi.app ≠ 0
      · simp [happ]
      · simp only [happ, if_neg, ite_false]
        cases rest with
        | nil => rfl
        | cons y ys =>
          simp only [ih c]
          cases searchKDPath (y :: ys) c with
          | none => rfl
          | some q => obtain ⟨pi, path⟩ := q; rfl
theorem searchKDPath_low :
    ∀ (data : List Nat) (t : Kdn) (pc : PiContainer) (path : List Nat),
      searchKDPath data t = some (pc, path) →
      ∀ e ∈ path, e = WILDCARD ∨ e < 128 := by
  intro data
  induction data with
  | nil => intro t pc path h; exact absurd h (by simp [searchKDPath])
  | cons b rest ih =>
    intro t pc path h
    obtain ⟨cs, p0⟩ := t
    simp only [searchKDPath] at h
    cases hfind : cs.find? (fun p => edgeMatch p.1 b) with
    | none => rw [hfind] at h; exact absurd h (by simp)
    | some pr =>
      obtain ⟨e, c⟩ := pr
      rw [hfind] at h
      dsimp only at h
      have hmatch : edgeMatch e b = true := by
        have := List.find?_some hfind
        simpa using this
      by_cases happ : c.pi.app ≠ 0
      · rw [if_pos happ] at h
        simp only [Option.some.injEq, Prod.mk.injEq] at h
        obtain ⟨rfl, rfl⟩ := h
        intro x hx
        rw [List.mem_singleton] at hx
        subst hx
        exact edgeMatch_true_cases x b hmatch
      · rw [if_neg happ] at h
        cases rest with
        | nil => exact absurd h (by simp)
        | cons y ys =>
          cases hrec : searchKDPath (y :: ys) c with
          | none => rw [hrec] at h; exact absurd h (by simp)
          | some q =>
            obtain ⟨pc2, path2⟩ := q
            rw [hrec] at h
            simp only [Option.some.injEq, Prod.mk.injEq] at h
            obtain ⟨rfl, rfl⟩ := h
            intro x hx
            rcases List.mem_cons.mp hx with rfl | hx2
            · exact edgeMatch_true_cases x b hmatch
            · exact ih c pc2 path2 hrec x hx2
theorem searchKD_append_some :
    ∀ (b : List Nat) (t : Kdn) (pc : PiContainer) (s : List Nat),
      searchKD b t = some pc → searchKD (b ++ s) t = some pc := by
  intro b
  induction b with
  | nil => intro t pc s h; exact absurd h (by simp [searchKD])
  | cons x xs ih =>
    intro t pc s h
    obtain ⟨cs, p0⟩ := t
    simp only [searchKD] at h
    simp only [List.cons_append, searchKD]
    cases hfind : cs.find? (fun p => edgeMatch p.1 x) with
    | none => rw [hfind] at h; exact absurd h (by simp)
    | some pr =>
      obtain ⟨e, c⟩ := pr
      rw [hfind] at h
      dsimp only at h
      dsimp only
      by_cases happ : c.pi.app ≠ 0
      · rw [if_pos happ] at h ⊢
        exact h
      · rw [if_neg happ] at h ⊢
        cases xs with
        | nil => exact absurd h (by simp)
        | cons y ys =>
          have h2 : searchKD (y :: ys) c = some pc := h
          have h3 := ih c pc s h2
          simpa using h3
theorem replaceFirst_map_fst :
    ∀ (cs : List (Nat × Kdn)) (v : Nat) (c' : Kdn),
      (replaceFirst cs v c').map Prod.fst = cs.map Prod.fst := by
  intro cs v c'
  induction cs with
  | nil => rfl
  | cons q rest ih =>
    obtain ⟨e, c⟩ := q
    simp only [replaceFirst]
    split
    · simp
    · simp [ih]

theorem mem_replaceFirst :
    ∀ (cs : List (Nat × Kdn)) (v : Nat) (c' : Kdn) (q : Nat × Kdn),
      q ∈ replaceFirst cs v c' → q.2 = c' ∨ q ∈ cs := by
  intro cs v c'
  induction cs with
  | nil => intro q h; exact absurd h (by simp [replaceFirst])
  | cons p rest ih =>
    obtain ⟨e, c⟩ := p
    intro q h
    simp only [replaceFirst] at h
    split at h
    · rcases List.mem_cons.mp h with rfl | hq
      · exact Or.inl rfl
      · exact Or.inr (List.mem_cons_of_mem _ hq)
    · rcases List.mem_cons.mp h with rfl | hq
      · exact Or.inr (List.mem_cons_self _ _)
      · rcases ih q hq with h1 | h2
        · exact Or.inl h1
        · exact Or.inr (List.mem_cons_of_mem _ h2)

theorem edgeInv_empty : EdgeInv emptyKdn := by
  refine EdgeInv.node [] ⟨0, 0⟩ List.nodup_nil ?_
  intro q hq
  exact absurd hq (by simp)

theorem insertKW_inv :
    ∀ (syms : List Nat) (pc : PiContainer) (t t' : Kdn),
      EdgeInv t → insertKW syms pc t = some t' → EdgeInv t' := by
  intro syms
  induction syms with
  | nil =>
    intro pc t t' ht h
    obtain ⟨cs, p0⟩ := t
    cases ht with
    | node _ _ hnodup hkids =>
      simp only [insertKW, Option.some.injEq] at h
      subst h
      exact EdgeInv.node cs pc hnodup hkids
  | cons v rest ih =>
    intro pc t t' ht h
    obtain ⟨cs, p0⟩ := t
    cases ht with
    | node _ _ hnodup hkids =>
      simp only [insertKW] at h
      cases hfind : cs.find? (fun p => p.1 == v) with
      | some pr =>
        obtain ⟨e, c⟩ := pr
        rw [hfind] at h
        dsimp only at h
        cases hrec : insertKW rest pc c with
        | none => rw [hrec] at h; exact absurd h (by simp)
        | some c' =>
          rw [hrec] at h
          simp only [Option.some.injEq] at h
          subst h
          have hcmem : (e, c) ∈ cs := List.mem_of_find?_eq_some hfind
          have hc' : EdgeInv c' := ih pc c c' (hkids (e, c) hcmem) hrec
          have he : e = v := by
            have := List.find?_some hfind
            simpa using this
          subst he
          refine EdgeInv.node _ p0 ?_ ?_
          · rw [replaceFirst_map_fst]
            exact hnodup
          · intro q hq
            rcases mem_replaceFirst cs e c' q hq with h1 | h2
            · rw [h1]; exact hc'
            · exact hkids q h2
      | none =>
        rw [hfind] at h
        dsimp only at h
        by_cases hcap : cs.length = MAX_CHILDREN - 1
        · rw [if_pos hcap] at h; exact absurd h (by simp)
        · rw [if_neg hcap] at h
          cases hrec : insertKW rest pc emptyKdn with
          | none => rw [hrec] at h; exact absurd h (by simp)
          | some c' =>
            rw [hrec] at h
            simp only [Option.some.injEq] at h
            subst h
            have hc' : EdgeInv c' := ih pc emptyKdn c' edgeInv_empty hrec
            have hnotmem : v ∉ cs.map Prod.fst := by
              intro hv
              obtain ⟨q, hq, hq1⟩ := List.mem_map.mp hv
              have := List.find?_eq_none.mp hfind q hq
              simp [hq1] at this
            refine EdgeInv.node _ p0 ?_ ?_
            · rw [List.map_append]
              simp only [List.map_cons, List.map_nil]
              rw [List.nodup_append]
              refine ⟨hnodup, List.nodup_singleton v, ?_⟩
              intro a ha hb
              rw [List.mem_singleton] at hb
              subst hb
              exact hnotmem ha
            · intro q hq
              rcases List.mem_append.mp hq with h1 | h2
              · exact hkids q h1
              · rw [List.mem_singleton] at h2
                subst h2
                exact hc'

theorem insertAll_inv :
    ∀ (kcs : List KeywordContainer) (t t' : Kdn),
      EdgeInv t → insertAll kcs t = some t' → EdgeInv t' := by
  intro kcs
  induction kcs with
  | nil =>
    intro t t' ht h
    simp only [insertAll, Option.some.injEq] at h
    subst h
    exact ht
  | cons kc rest ih =>
    intro t t' ht h
    simp only [insertAll] at h
    cases hstep : insertKW kc.value kc.pi t with
    | none => rw [hstep] at h; exact absurd h (by simp)
    | some t1 =>
      rw [hstep] at h
      exact ih t1 t' (insertKW_inv kc.value kc.pi t t1 ht hstep) h
/-- C1: the claim says `proto_identify_destroy_keyword_dict` is an
idempotent teardown (second call frees no node) and a no-op before the
dictionary is built.  The no-op on a never-built dictionary holds (first
conjunct), but the source never resets `kd_root` after `destroy_kdn`, so
after one teardown the global still holds the old pointer and a second call
runs `destroy_kdn` over the already-freed tree again: it frees
`destroy_kdn t` nodes, which is never zero — a double free, contradicting
the claim. -/
theorem destroy_keyword_dict_double_free :
    proto_identify_destroy_keyword_dict none = (none, 0) ∧
    ∀ t : Kdn,
      (proto_identify_destroy_keyword_dict (some t)).1 = some t ∧
      (proto_identify_destroy_keyword_dict
        (proto_identify_destroy_keyword_dict (some t)).1).2 = destroy_kdn t ∧
      destroy_kdn t ≠ 0 := by
  refine ⟨rfl, fun t => ⟨rfl, rfl, ?_⟩⟩
  obtain ⟨cs, p⟩ := t
  have h : destroy_kdn (.node cs p) = 1 + destroy_children cs := rfl
  omega

/-- C2: the claim says a node's edge list can hold all 257 edge symbols
(256 literal bytes plus the wildcard).  The `edge[]` array does have
`MAX_CHILDREN = 257` slots, but `kdn_create_sibling` refuses a new edge
already when `num_children == MAX_CHILDREN - 1`, so the 257th edge is never
created (and `keyword_dict_add_keyword` then dereferences the NULL result):
building from 257 one-symbol keywords with distinct symbols fails, while
the same construction stops at 256 edges when given only the first 256
keywords. -/
theorem max_children_last_slot_unusable :
    construct_keyword_dict oneSymbolKeywords = none ∧
    (construct_keyword_dict (oneSymbolKeywords.take 256)).map
      (fun t => t.children.length) = some 256 :=
  ⟨rfl, rfl⟩

/-- C3: with the reference TLS catalog loaded, classification of
`16 03 01 00 2F 01` returns protocol id 443 (via the client-direction
signature) and classification of `16 03 01 00 2F 02` returns 443 (via the
server-direction signature). -/
theorem tls_catalog_classifies_client_and_server :
    identify_tcp_protocol tlsTree [0x16, 0x03, 0x01, 0x00, 0x2F, 0x01] = 443 ∧
    identify_tcp_protocol tlsTree [0x16, 0x03, 0x01, 0x00, 0x2F, 0x02] = 443 :=
  ⟨rfl, rfl⟩

/-- C4: with the signature `[0x16, 0x03, 0x01, WILDCARD, WILDCARD, 0x01]`
in the dictionary, classification matches every input `16 03 01 xx xx 01`
— the wildcard edges accept any byte value whatsoever, so this is proved
for arbitrary naturals `x` and `y`, which covers all 256 byte values of
each wildcard position — and matches no input `16 03 01 xx xx 03`. -/
theorem wildcard_signature_matching :
    ∀ x y : Nat,
      identify_tcp_protocol wcTree [0x16, 0x03, 0x01, x, y, 0x01] = 443 ∧
      identify_tcp_protocol wcTree [0x16, 0x03, 0x01, x, y, 0x03] = 0 :=
  fun _ _ => ⟨rfl, rfl⟩

/-- C5: with the reference TLS catalog loaded, the truncated 5-byte input
`16 03 01 00 2F` classifies as unknown (0): the walk consumes the last
byte at the second wildcard edge, reaches a node with inference 0, and the
`data_len == 1` check returns no match. -/
theorem tls_truncated_input_unknown :
    identify_tcp_protocol tlsTree [0x16, 0x03, 0x01, 0x00, 0x2F] = 0 :=
  rfl

/-- C6: every tree a successful build produces satisfies `EdgeInv`: no two
outgoing edges of the same node carry the same symbol (the scan descends
into an existing edge rather than duplicating it).  Consequently signatures
sharing a prefix share one path: the second conjunct exhibits the tree of
the reference catalog, whose two signatures share the 5-symbol prefix
`16 03 01 * *` as a single chain that only forks at depth 5. -/
theorem keyword_dict_edges_nodup :
    (∀ (kcs : List KeywordContainer) (t : Kdn),
        construct_keyword_dict kcs = some t → EdgeInv t) ∧
    construct_keyword_dict tlsTable =
      some (.node [(0x16, .node [(0x03, .node [(0x01, .node [(WILDCARD, .node
        [(WILDCARD, .node [(0x01, .node [] ⟨DIR_CLIENT, 443⟩),
                           (0x02, .node [] ⟨DIR_SERVER, 443⟩)] ⟨0, 0⟩)]
        ⟨0, 0⟩)] ⟨0, 0⟩)] ⟨0, 0⟩)] ⟨0, 0⟩)] ⟨0, 0⟩) :=
  ⟨fun kcs t h => insertAll_inv kcs emptyKdn t edgeInv_empty h, rfl⟩

/-- C6 witness: the invariant evaluated on the concrete tree built from the
reference TLS catalog, by applying `keyword_dict_edges_nodup`. -/
theorem keyword_dict_edges_nodup_witness : EdgeInv tlsTree :=
  keyword_dict_edges_nodup.1 tlsTable tlsTree rfl

/-- C7: `add_keyword` fails exactly when the table is full
(`num_keywords >= MAX_KEYWORDS`, the spec's CapacityExceeded) or the
keyword is longer than `MAX_VAL_LEN` symbols (`value_bytes_len >
MAX_VAL_BYTES` with two bytes per symbol, the spec's SignatureTooLong); on
failure the table is unchanged, on success the keyword is appended. -/
theorem add_keyword_failure_spec :
    ∀ (tbl : List KeywordContainer) (v : List Nat) (p : PiContainer),
      ((add_keyword tbl v p).1 = 1 ↔
        MAX_KEYWORDS ≤ tbl.length ∨ MAX_VAL_LEN < v.length) ∧
      ((add_keyword tbl v p).1 = 0 ↔
        ¬(MAX_KEYWORDS ≤ tbl.length ∨ MAX_VAL_LEN < v.length)) ∧
      ((add_keyword tbl v p).1 = 1 → (add_keyword tbl v p).2 = tbl) ∧
      ((add_keyword tbl v p).1 = 0 →
        (add_keyword tbl v p).2 = tbl ++ [⟨v, p⟩]) := by
  intro tbl v p
  unfold add_keyword
  simp only [MAX_KEYWORDS, MAX_VAL_LEN, MAX_VAL_BYTES]
  split_ifs with h1 h2 <;> refine ⟨?_, ?_, ?_, ?_⟩ <;> simp <;> omega

/-- C7 witness: `add_keyword_failure_spec` applied at a full table (the add
fails and returns the table unchanged), at an over-long keyword, and at an
accepting call. -/
theorem add_keyword_failure_demo :
    (add_keyword (List.replicate 256 ⟨[], ⟨0, 0⟩⟩) [0x16] ⟨0, 0⟩).1 = 1 ∧
    (add_keyword (List.replicate 256 ⟨[], ⟨0, 0⟩⟩) [0x16] ⟨0, 0⟩).2 =
      List.replicate 256 ⟨[], ⟨0, 0⟩⟩ ∧
    (add_keyword [] (List.replicate 33 0) ⟨0, 7⟩).1 = 1 ∧
    (add_keyword [] [0x16] ⟨0, 7⟩).2 = [⟨[0x16], ⟨0, 7⟩⟩] :=
  ⟨rfl, (add_keyword_failure_spec _ _ _).2.2.1 rfl, rfl, rfl⟩

/-- C8: classification is total (the embedding is a total function) and
returns the sentinel 0 both on the empty input, for every dictionary tree,
and on an input matching no signature, such as `FF FF FF` against the
reference TLS catalog (note `0xFF` is read as the signed char `-1`, which
matches no edge of the root). -/
theorem classify_empty_and_no_match_unknown :
    (∀ t : Kdn, identify_tcp_protocol t [] = 0) ∧
    identify_tcp_protocol tlsTree [0xFF, 0xFF, 0xFF] = 0 :=
  ⟨fun _ => rfl, rfl⟩

/-- C9: because `search_keyword_dict` compares the sign-extended input byte
(`*data` through a `char` pointer, signed as on x86) with the zero-extended
`uint16_t` edge value, a literal edge symbol in `0x80`..`0xFF` can never
test equal: every edge on the committed path of a successful search is the
wildcard or a literal below `0x80`.  A terminal node is identified by its
root path, which for the terminal node of a signature is the signature's
own symbol list; so for any signature containing a literal symbol in
`0x80`..`0xFF`, no successful search ever ends at that signature's terminal
node — its inference is never returned. -/
theorem high_literal_edges_unreachable :
    ∀ (t : Kdn) (data sig : List Nat) (pc : PiContainer) (path : List Nat),
      searchKDPath data t = some (pc, path) →
      (∃ s ∈ sig, 0x80 ≤ s ∧ s ≤ 0xFF) →
      (∀ e ∈ path, e = WILDCARD ∨ e < 0x80) ∧ path ≠ sig ∧
        searchKD data t = some pc := by
  intro t data sig pc path h hsig
  have hlow : ∀ e ∈ path, e = WILDCARD ∨ e < 128 :=
    searchKDPath_low data t pc path h
  refine ⟨hlow, ?_, ?_⟩
  · intro heq
    obtain ⟨s, hs, h1, h2⟩ := hsig
    have hw : WILDCARD = 256 := rfl
    rcases hlow s (by rw [heq]; exact hs) with h3 | h3 <;> omega
  · rw [searchKD_eq_searchKDPath, h]; rfl

/-- C9 witness: the theorem applied to the reference TLS tree, the input
`16 03 01 00 2F 01`, and the (hypothetical) signature `[0x16, 0x85, 0x01]`
containing the high literal `0x85`. -/
theorem high_literal_edges_unreachable_witness :
    (∀ e ∈ ([0x16, 0x03, 0x01, WILDCARD, WILDCARD, 0x01] : List Nat),
        e = WILDCARD ∨ e < 0x80) ∧
    ([0x16, 0x03, 0x01, WILDCARD, WILDCARD, 0x01] : List Nat) ≠
      [0x16, 0x85, 0x01] ∧
    searchKD [0x16, 0x03, 0x01, 0x00, 0x2F, 0x01] tlsTree = some ⟨1, 443⟩ :=
  high_literal_edges_unreachable tlsTree [0x16, 0x03, 0x01, 0x00, 0x2F, 0x01]
    [0x16, 0x85, 0x01] ⟨1, 443⟩ [0x16, 0x03, 0x01, WILDCARD, WILDCARD, 0x01]
    rfl (by decide)

/-- C10: a successful classification only depends on the consumed prefix of
the input: if classifying `b` gives a non-zero protocol id `p`, classifying
`b ++ s` gives the same `p` for every suffix `s`. -/
theorem classify_stable_under_append :
    ∀ (t : Kdn) (b s : List Nat) (p : Nat),
      identify_tcp_protocol t b = p → p ≠ 0 →
      identify_tcp_protocol t (b ++ s) = p := by
  intro t b s p hb hp
  cases b with
  | nil => exact absurd hb.symm hp
  | cons x xs =>
    have hb2 : (match searchKD (x :: xs) t with
        | some pc => pc.app
        | none => 0) = p := hb
    cases hs : searchKD (x :: xs) t with
    | none => rw [hs] at hb2; exact absurd hb2.symm hp
    | some pc =>
      rw [hs] at hb2
      have h2 := searchKD_append_some (x :: xs) t pc s hs
      show (match searchKD ((x :: xs) ++ s) t with
        | some pc => pc.app
        | none => 0) = p
      rw [h2]
      exact hb2

/-- C10 witness: the theorem applied to the reference TLS tree, the
classified input `16 03 01 00 2F 01` and the suffix `AB CD`. -/
theorem classify_stable_under_append_witness :
    identify_tcp_protocol tlsTree
      ([0x16, 0x03, 0x01, 0x00, 0x2F, 0x01] ++ [0xAB, 0xCD]) = 443 :=
  classify_stable_under_append tlsTree [0x16, 0x03, 0x01, 0x00, 0x2F, 0x01]
    [0xAB, 0xCD] 443 rfl (by decide)
